import Mathlib

/-!
Verification of `telegrambot/tools/generate_key.py`.

The script generates `length` cryptographically secure random bytes,
base64-encodes them, prints the key together with an advisory line, and, if a
`.env` file exists one directory above the script's own directory and contains
the literal placeholder `ENCRYPTION_KEY=replace_with_generated_key`, rewrites
that file with every occurrence of the placeholder replaced by
`ENCRYPTION_KEY=<key>`, printing a confirmation line.

We embed the program shallowly: the random bytes drawn by
`secrets.token_bytes` become an explicit argument (a list of naturals, each
`< 256`), strings are lists of characters, the filesystem is an
`Option (List Char)` holding the `.env` content (or `none` if the file does
not exist), and the observable effects (printed lines, the write performed,
the final file content, the returned key) are collected in a record.
-/

/-- The base64 alphabet of RFC 4648 (`string.ascii_uppercase`,
`string.ascii_lowercase`, digits, `+`, `/`), as used by `base64.b64encode`. -/
def b64chars : List Char :=
  ['A', 'B', 'C', 'D', 'E', 'F', 'G', 'H', 'I', 'J', 'K', 'L', 'M',
   'N', 'O', 'P', 'Q', 'R', 'S', 'T', 'U', 'V', 'W', 'X', 'Y', 'Z',
   'a', 'b', 'c', 'd', 'e', 'f', 'g', 'h', 'i', 'j', 'k', 'l', 'm',
   'n', 'o', 'p', 'q', 'r', 's', 't', 'u', 'v', 'w', 'x', 'y', 'z',
   '0', '1', '2', '3', '4', '5', '6', '7', '8', '9', '+', '/']

/-- The character standing for a 6-bit group. -/
def b64Char (n : Nat) : Char := b64chars.getD n 'A'

/-- `base64.b64encode`: bytes to base64 text, with `=` padding.  Three input
bytes give four characters; a two-byte tail gives three characters and one
`=`; a one-byte tail gives two characters and `==`. -/
def b64encodeList : List Nat → List Char
  | b1 :: b2 :: b3 :: rest =>
      b64Char (b1 / 4) :: b64Char (b1 % 4 * 16 + b2 / 16) ::
        b64Char (b2 % 16 * 4 + b3 / 64) :: b64Char (b3 % 64) :: b64encodeList rest
  | [b1, b2] => [b64Char (b1 / 4), b64Char (b1 % 4 * 16 + b2 / 16),
                 b64Char (b2 % 16 * 4), '=']
  | [b1] => [b64Char (b1 / 4), b64Char (b1 % 4 * 16), '=', '=']
  | [] => []

/-- Position of a character in the base64 alphabet. -/
def b64Index (c : Char) : Option Nat := b64chars.findIdx? (· == c)

/-- Standard (RFC 4648) base64 decoding with padding: four characters at a
time, rejecting ill-formed input and non-zero leftover bits. -/
def b64decodeList : List Char → Option (List Nat)
  | c1 :: c2 :: c3 :: c4 :: rest =>
      (b64Index c1).bind fun n1 =>
      (b64Index c2).bind fun n2 =>
      if c3 = '=' then
        if c4 = '=' ∧ rest = [] ∧ n2 % 16 = 0 then
          some [n1 * 4 + n2 / 16]
        else none
      else
        (b64Index c3).bind fun n3 =>
        if c4 = '=' then
          if rest = [] ∧ n3 % 4 = 0 then
            some [n1 * 4 + n2 / 16, n2 % 16 * 16 + n3 / 4]
          else none
        else
          (b64Index c4).bind fun n4 =>
          (b64decodeList rest).bind fun bs =>
          some ((n1 * 4 + n2 / 16) :: (n2 % 16 * 16 + n3 / 4) :: (n3 % 4 * 64 + n4) :: bs)
  | [] => some []
  | _ => none

/-- The sentinel the script looks for in `.env`. -/
def placeholder : List Char := "ENCRYPTION_KEY=replace_with_generated_key".toList

/-- The fixed part `ENCRYPTION_KEY=` of the replacement text. -/
def encKeyEq : List Char := "ENCRYPTION_KEY=".toList

/-- Text of the first printed line, before the key itself. -/
def keyMsg : List Char := "Generated encryption key: ".toList

/-- Text of the advisory line. -/
def storeMsg : List Char :=
  "Store this key securely and add it to your .env file as ENCRYPTION_KEY".toList

/-- Text of the confirmation line printed after patching `.env`. -/
def updatedMsg : List Char := "Updated .env file with the new encryption key".toList

/-- Python's substring test `p in s`. -/
def containsSub (p s : List Char) : Bool :=
  match s with
  | [] => p.isEmpty
  | c :: t => p.isPrefixOf (c :: t) || containsSub p t

/-- Worker for `replaceAll`, structurally recursive on a fuel argument so
that it reduces inside the kernel; the fuel is always at least the length of
the text, and each step consumes at least one character. -/
def replaceAllF (p r : List Char) : Nat → List Char → List Char
  | 0, _ => []
  | _ + 1, [] => []
  | f + 1, c :: t =>
      if p.isPrefixOf (c :: t) then r ++ replaceAllF p r f (t.drop (p.length - 1))
      else c :: replaceAllF p r f t

/-- Python's `s.replace(p, r)`: scan left to right, replacing each
non-overlapping occurrence of `p` by `r`. -/
def replaceAll (p r s : List Char) : List Char :=
  replaceAllF p r s.length s

/-- Everything observable about one run of `generate_encryption_key`: the
returned key, the lines printed to standard output in order, the content
written to `.env` (if a write happened), and the final content of `.env`
(`none` when the file does not exist). -/
structure RunResult where
  key : List Char
  printed : List (List Char)
  envWritten : Option (List Char)
  envFinal : Option (List Char)
deriving Repr, DecidableEq

/-- Shallow embedding of `generate_encryption_key`.  `randomBytes` is the
outcome of `secrets.token_bytes(length)` (so its length is the `length`
argument) and `envFile` is the content of the `.env` file next to the tools
directory, or `none` when that file does not exist. -/
def generate_encryption_key (randomBytes : List Nat) (envFile : Option (List Char)) :
    RunResult :=
  let key_b64 := b64encodeList randomBytes
  match envFile with
  | none =>
      { key := key_b64
        printed := [keyMsg ++ key_b64, storeMsg]
        envWritten := none
        envFinal := none }
  | some env_content =>
      if containsSub placeholder env_content then
        let newContent := replaceAll placeholder (encKeyEq ++ key_b64) env_content
        { key := key_b64
          printed := [keyMsg ++ key_b64, storeMsg, updatedMsg]
          envWritten := some newContent
          envFinal := some newContent }
      else
        { key := key_b64
          printed := [keyMsg ++ key_b64, storeMsg]
          envWritten := none
          envFinal := some env_content }

/-- `os.path.dirname` on a path given as its list of components. -/
def dirnameC (p : List (List Char)) : List (List Char) := p.dropLast

/-- `os.path.join(dir, name)` on a path given as its list of components. -/
def joinC (p : List (List Char)) (name : List Char) : List (List Char) :=
  p ++ [name]

/-- The `.env` path the script computes:
`os.path.join(os.path.dirname(os.path.dirname(os.path.abspath(__file__))), '.env')`,
where `scriptFile` is the absolute path of the script as components. -/
def env_path (scriptFile : List (List Char)) : List (List Char) :=
  joinC (dirnameC (dirnameC scriptFile)) ".env".toList

/-! ## Basic properties of the string operations -/

theorem containsSub_iff {p s : List Char} :
    containsSub p s = true ↔ ∃ u v, s = u ++ p ++ v := by
  induction s with
  | nil =>
      simp only [containsSub, List.isEmpty_iff]
      constructor
      · rintro rfl; exact ⟨[], [], rfl⟩
      · rintro ⟨u, v, h⟩
        rcases List.append_eq_nil.mp h.symm with ⟨h1, h2⟩
        exact (List.append_eq_nil.mp h1).2
  | cons c t ih =>
      simp only [containsSub, Bool.or_eq_true, List.isPrefixOf_iff_prefix, ih]
      constructor
      · rintro (⟨w, hw⟩ | ⟨u, v, rfl⟩)
        · exact ⟨[], w, by simpa using hw.symm⟩
        · exact ⟨c :: u, v, rfl⟩
      · rintro ⟨u, v, huv⟩
        cases u with
        | nil => exact Or.inl ⟨v, by simpa using huv.symm⟩
        | cons u0 u' =>
            right
            refine ⟨u', v, ?_⟩
            have := huv
            simp only [List.cons_append] at this
            exact (List.cons.injEq .. ▸ this).2

theorem replaceAllF_congr (p r : List Char) :
    ∀ (f₁ : Nat) (f₂ : Nat) (s : List Char), s.length ≤ f₁ → s.length ≤ f₂ →
      replaceAllF p r f₁ s = replaceAllF p r f₂ s := by
  intro f₁
  induction f₁ with
  | zero =>
      intro f₂ s h1 _
      have hs : s = [] := List.length_eq_zero.mp (Nat.le_zero.mp h1)
      subst hs
      cases f₂ <;> rfl
  | succ g ih =>
      intro f₂ s h1 h2
      cases s with
      | nil => cases f₂ <;> rfl
      | cons c t =>
          cases f₂ with
          | zero => simp at h2
          | succ m =>
              simp only [List.length_cons] at h1 h2
              cases hp : p.isPrefixOf (c :: t) with
              | true =>
                  simp only [replaceAllF, hp, if_true]
                  rw [ih m (t.drop (p.length - 1))
                    (by simp only [List.length_drop]; omega)
                    (by simp only [List.length_drop]; omega)]
              | false =>
                  simp only [replaceAllF, hp, Bool.false_eq_true, if_false]
                  rw [ih m t (by omega) (by omega)]

theorem replaceAll_nil (p r : List Char) : replaceAll p r [] = [] := rfl

theorem replaceAll_cons_pos {p : List Char} (r : List Char) {c : Char} {t : List Char}
    (h : p.isPrefixOf (c :: t) = true) :
    replaceAll p r (c :: t) = r ++ replaceAll p r (t.drop (p.length - 1)) := by
  unfold replaceAll
  simp only [List.length_cons, replaceAllF, h, if_true]
  rw [replaceAllF_congr p r t.length (t.drop (p.length - 1)).length (t.drop (p.length - 1))
    (by simp only [List.length_drop]; omega) (Nat.le_refl _)]

theorem replaceAll_cons_neg {p : List Char} (r : List Char) {c : Char} {t : List Char}
    (h : p.isPrefixOf (c :: t) = false) :
    replaceAll p r (c :: t) = c :: replaceAll p r t := by
  unfold replaceAll
  simp only [List.length_cons, replaceAllF, h, Bool.false_eq_true, if_false]

/-- Decomposing one occurrence of `P` across a concatenation: the occurrence
lies in the left part, lies in the right part, or straddles the border. -/
theorem occurrence_split {u P v X Y : List Char} (h : u ++ (P ++ v) = X ++ Y) :
    (∃ w, X = u ++ (P ++ w)) ∨ (∃ w, u = X ++ w ∧ Y = w ++ (P ++ v)) ∨
      (∃ a b, P = a ++ b ∧ a ≠ [] ∧ b ≠ [] ∧ X = u ++ a ∧ Y = b ++ v) := by
  rcases List.append_eq_append_iff.mp h with ⟨m, hX, hm⟩ | ⟨m, hu, hY⟩
  · rcases List.append_eq_append_iff.mp hm with ⟨k, hmk, hv⟩ | ⟨k, hP, hYk⟩
    · exact Or.inl ⟨k, by rw [hX, hmk]⟩
    · cases hm0 : m with
      | nil =>
          subst hm0
          simp only [List.nil_append] at hP
          refine Or.inr (Or.inl ⟨[], by simp [hX], ?_⟩)
          rw [hYk, hP]
          simp
      | cons m0 m' =>
          cases hk0 : k with
          | nil =>
              subst hk0
              refine Or.inl ⟨[], ?_⟩
              rw [hX, hP]
              simp
          | cons k0 k' =>
              exact Or.inr (Or.inr ⟨m, k, hP, by simp [hm0], by simp [hk0], hX, hYk⟩)
  · exact Or.inr (Or.inl ⟨m, hu, hY⟩)

/-! ## Properties of the base64 encoder and decoder -/

theorem b64Index_b64Char {n : Nat} (h : n < 64) : b64Index (b64Char n) = some n := by
  have hall : ∀ m, m < 64 → b64Index (b64Char m) = some m := by decide
  exact hall n h

theorem b64Char_mem_or (n : Nat) : b64Char n ∈ b64chars ∨ b64Char n = 'A' := by
  by_cases h : n < 64
  · have hall : ∀ m, m < 64 → b64Char m ∈ b64chars := by decide
    exact Or.inl (hall n h)
  · right
    unfold b64Char
    apply List.getD_eq_default
    have : b64chars.length = 64 := by decide
    omega

theorem b64Char_ne_pad (n : Nat) : ¬ b64Char n = '=' := by
  rcases b64Char_mem_or n with h | h
  · intro hc
    rw [hc] at h
    exact absurd h (by decide)
  · rw [h]; decide

theorem b64Char_ne_us (n : Nat) : ¬ b64Char n = '_' := by
  rcases b64Char_mem_or n with h | h
  · intro hc
    rw [hc] at h
    exact absurd h (by decide)
  · rw [h]; decide

/-- Decoding inverts encoding: the encoded text decodes to exactly the
original byte list. -/
theorem b64_roundtrip : ∀ bs : List Nat, (∀ b ∈ bs, b < 256) →
    b64decodeList (b64encodeList bs) = some bs
  | [], _ => rfl
  | [b1], h => by
      have h1 : b1 < 256 := h b1 (by simp)
      simp only [b64encodeList, b64decodeList]
      rw [b64Index_b64Char (show b1 / 4 < 64 by omega)]
      simp only [Option.some_bind]
      rw [b64Index_b64Char (show b1 % 4 * 16 < 64 by omega)]
      simp only [Option.some_bind]
      rw [if_pos trivial,
        if_pos (⟨trivial, trivial, by omega⟩ : True ∧ True ∧ b1 % 4 * 16 % 16 = 0)]
      simp only [Option.some.injEq, List.cons.injEq, and_true]
      omega
  | [b1, b2], h => by
      have h1 : b1 < 256 := h b1 (by simp)
      have h2 : b2 < 256 := h b2 (by simp)
      simp only [b64encodeList, b64decodeList]
      rw [b64Index_b64Char (show b1 / 4 < 64 by omega)]
      simp only [Option.some_bind]
      rw [b64Index_b64Char (show b1 % 4 * 16 + b2 / 16 < 64 by omega)]
      simp only [Option.some_bind]
      rw [if_neg (b64Char_ne_pad (b2 % 16 * 4))]
      rw [b64Index_b64Char (show b2 % 16 * 4 < 64 by omega)]
      simp only [Option.some_bind]
      rw [if_pos trivial, if_pos (⟨trivial, by omega⟩ : True ∧ b2 % 16 * 4 % 4 = 0)]
      simp only [Option.some.injEq, List.cons.injEq, and_true]
      exact ⟨by omega, by omega⟩
  | b1 :: b2 :: b3 :: rest, h => by
      have h1 : b1 < 256 := h b1 (by simp)
      have h2 : b2 < 256 := h b2 (by simp)
      have h3 : b3 < 256 := h b3 (by simp)
      have ih := b64_roundtrip rest (fun b hb => h b (by simp [hb]))
      simp only [b64encodeList, b64decodeList]
      rw [b64Index_b64Char (show b1 / 4 < 64 by omega)]
      simp only [Option.some_bind]
      rw [b64Index_b64Char (show b1 % 4 * 16 + b2 / 16 < 64 by omega)]
      simp only [Option.some_bind]
      rw [if_neg (b64Char_ne_pad (b2 % 16 * 4 + b3 / 64))]
      rw [b64Index_b64Char (show b2 % 16 * 4 + b3 / 64 < 64 by omega)]
      simp only [Option.some_bind]
      rw [if_neg (b64Char_ne_pad (b3 % 64))]
      rw [b64Index_b64Char (show b3 % 64 < 64 by omega)]
      simp only [Option.some_bind]
      rw [ih]
      simp only [Option.some_bind, Option.some.injEq, List.cons.injEq]
      exact ⟨by omega, by omega, by omega, trivial⟩

/-- The length of the encoded text: four characters for every (started) group
of three bytes. -/
theorem b64encode_length : ∀ bs : List Nat,
    (b64encodeList bs).length = (bs.length + 2) / 3 * 4
  | [] => by simp [b64encodeList]
  | [_] => by simp [b64encodeList]
  | [_, _] => by simp [b64encodeList]
  | b1 :: b2 :: b3 :: rest => by
      simp only [b64encodeList, List.length_cons, b64encode_length rest]
      omega

/-- The encoder never emits an underscore. -/
theorem b64encode_no_us : ∀ bs : List Nat, '_' ∉ b64encodeList bs
  | [] => by simp [b64encodeList]
  | [b1] => by
      simp only [b64encodeList, List.mem_cons, List.not_mem_nil, or_false]
      push_neg
      refine ⟨?_, ?_, by decide, by decide⟩ <;>
        exact fun hc => b64Char_ne_us _ hc.symm
  | [b1, b2] => by
      simp only [b64encodeList, List.mem_cons, List.not_mem_nil, or_false]
      push_neg
      refine ⟨?_, ?_, ?_, by decide⟩ <;>
        exact fun hc => b64Char_ne_us _ hc.symm
  | b1 :: b2 :: b3 :: rest => by
      simp only [b64encodeList, List.mem_cons]
      push_neg
      refine ⟨?_, ?_, ?_, ?_, b64encode_no_us rest⟩ <;>
        exact fun hc => b64Char_ne_us _ hc.symm

/-- When the byte count is `2` modulo `3` (so in particular for the default
`32`), the encoded text is padded with exactly one trailing `=`. -/
theorem b64encode_pad_shape : ∀ bs : List Nat, bs.length % 3 = 2 →
    ∃ l, b64encodeList bs = l ++ ['='] ∧ '=' ∉ l
  | [], h => by simp at h
  | [_], h => by simp at h
  | [b1, b2], _ => by
      refine ⟨[b64Char (b1 / 4), b64Char (b1 % 4 * 16 + b2 / 16), b64Char (b2 % 16 * 4)],
        rfl, ?_⟩
      simp only [List.mem_cons, List.not_mem_nil, or_false]
      push_neg
      refine ⟨?_, ?_, ?_⟩ <;> exact fun hc => b64Char_ne_pad _ hc.symm
  | b1 :: b2 :: b3 :: rest, h => by
      have hr : rest.length % 3 = 2 := by
        simp only [List.length_cons] at h
        omega
      obtain ⟨l, hl, hmem⟩ := b64encode_pad_shape rest hr
      refine ⟨b64Char (b1 / 4) :: b64Char (b1 % 4 * 16 + b2 / 16) ::
        b64Char (b2 % 16 * 4 + b3 / 64) :: b64Char (b3 % 64) :: l, ?_, ?_⟩
      · simp only [b64encodeList, hl, List.cons_append]
      · simp only [List.mem_cons]
        push_neg
        refine ⟨?_, ?_, ?_, ?_, hmem⟩ <;> exact fun hc => b64Char_ne_pad _ hc.symm

/-! ## After patching, the placeholder is gone (for the default key length) -/

theorem prefix_append_left {b X Y : List Char} (h : b <+: X ++ Y)
    (hlen : b.length ≤ X.length) : b <+: X := by
  have hb := List.prefix_iff_eq_take.mp h
  rw [List.take_append_of_le_length hlen] at hb
  rw [hb]
  exact List.take_prefix _ _

/-- If a nonempty proper suffix `b` of the placeholder is a prefix of the
output of `replaceAll`, it is already a prefix of the input: the replacement
text `ENCRYPTION_KEY=<44-character key>` cannot supply the missing start. -/
theorem replaceAll_partial_recover (key : List Char) (hK44 : key.length = 44) :
    ∀ s b a : List Char, a ≠ [] → b ≠ [] → a ++ b = placeholder →
      b <+: replaceAll placeholder (encKeyEq ++ key) s → b <+: s := by
  intro s
  induction s with
  | nil =>
      intro b a _ hb _ hpre
      rw [replaceAll_nil] at hpre
      exact absurd (List.prefix_nil.mp hpre) hb
  | cons c t ih =>
      intro b a ha hb hab hpre
      cases hmatch : placeholder.isPrefixOf (c :: t) with
      | true =>
          exfalso
          rw [replaceAll_cons_pos (encKeyEq ++ key) hmatch] at hpre
          have hlenP : placeholder.length = 41 := by decide
          have hElen : encKeyEq.length = 15 := by decide
          have hablen : a.length + b.length = 41 := by
            have hL := congrArg List.length hab
            simpa [List.length_append, hlenP] using hL
          have ha1 : 1 ≤ a.length := List.length_pos.mpr ha
          have hb1 : 1 ≤ b.length := List.length_pos.mpr hb
          have hpre2 : b <+: encKeyEq ++ key :=
            prefix_append_left hpre (by simp only [List.length_append, hElen, hK44]; omega)
          obtain ⟨w, hw⟩ := hpre2
          have hbidx : ∀ i, b[i]? = placeholder[a.length + i]? := by
            intro i
            conv_rhs => rw [← hab]
            rw [List.getElem?_append_right (by omega)]
            congr 1
            omega
          have hRidx : ∀ i, i < b.length → b[i]? = (encKeyEq ++ key)[i]? := by
            intro i hi
            rw [← hw, List.getElem?_append_left hi]
          have hEuniq : ∀ u, u < 41 → 1 ≤ u → placeholder[u]? = some 'E' → u = 12 := by
            decide
          have h0 : placeholder[a.length]? = some 'E' := by
            have h0b := hbidx 0
            rw [Nat.add_zero] at h0b
            rw [← h0b, hRidx 0 (by omega),
              List.getElem?_append_left (by rw [hElen]; omega)]
            decide
          have ht12 : a.length = 12 := hEuniq a.length (by omega) ha1 h0
          have h1Y : b[1]? = some 'Y' := by
            rw [hbidx 1, ht12]
            decide
          have h1N : b[1]? = some 'N' := by
            rw [hRidx 1 (by omega), List.getElem?_append_left (by rw [hElen]; omega)]
            decide
          rw [h1Y] at h1N
          exact absurd h1N (by decide)
      | false =>
          rw [replaceAll_cons_neg (encKeyEq ++ key) hmatch] at hpre
          cases b with
          | nil => exact absurd rfl hb
          | cons b0 b' =>
              obtain ⟨w, hw⟩ := hpre
              simp only [List.cons_append] at hw
              have hb0 : b0 = c := (List.cons.injEq .. ▸ hw).1
              have htail : b' ++ w = replaceAll placeholder (encKeyEq ++ key) t :=
                (List.cons.injEq .. ▸ hw).2
              cases hb' : b' with
              | nil =>
                  subst hb'
                  exact ⟨t, by simp [hb0]⟩
              | cons b1 b'' =>
                  have hb'pre : b' <+: replaceAll placeholder (encKeyEq ++ key) t :=
                    ⟨w, htail⟩
                  have hb'ne : b' ≠ [] := by simp [hb']
                  have hab' : (a ++ [b0]) ++ b' = placeholder := by
                    rw [List.append_assoc]
                    simpa using hab
                  have hrec := ih b' (a ++ [b0]) (by simp) hb'ne hab' hb'pre
                  obtain ⟨z, hz⟩ := hrec
                  exact ⟨z, by simp [hb0, ← hz, hb']⟩

/-- Core lemma: replacing the placeholder by `ENCRYPTION_KEY=<key>` with a
44-character key that has no underscore and ends in `=` leaves a text in
which the placeholder does not occur — neither inside a replacement, nor
straddling one, nor in untouched text. -/
theorem replaceAll_no_placeholder (key : List Char) (hK44 : key.length = 44)
    (hKus : '_' ∉ key) (hKpad : key.getLast? = some '=') :
    ∀ (n : Nat) (s : List Char), s.length ≤ n →
      ¬ ∃ u v, replaceAll placeholder (encKeyEq ++ key) s = u ++ (placeholder ++ v) := by
  intro n
  induction n with
  | zero =>
      intro s hs
      have hnil : s = [] := List.length_eq_zero.mp (Nat.le_zero.mp hs)
      subst hnil
      rintro ⟨u, v, huv⟩
      rw [replaceAll_nil] at huv
      rcases List.append_eq_nil.mp huv.symm with ⟨-, h2⟩
      rcases List.append_eq_nil.mp h2 with ⟨h3, -⟩
      exact absurd h3 (by decide)
  | succ m ih =>
      intro s hs
      cases s with
      | nil =>
          rintro ⟨u, v, huv⟩
          rw [replaceAll_nil] at huv
          rcases List.append_eq_nil.mp huv.symm with ⟨-, h2⟩
          rcases List.append_eq_nil.mp h2 with ⟨h3, -⟩
          exact absurd h3 (by decide)
      | cons c t =>
          rintro ⟨u, v, huv⟩
          simp only [List.length_cons] at hs
          cases hmatch : placeholder.isPrefixOf (c :: t) with
          | false =>
              rw [replaceAll_cons_neg (encKeyEq ++ key) hmatch] at huv
              cases u with
              | nil =>
                  simp only [List.nil_append] at huv
                  have hPsplit : placeholder = 'E' :: placeholder.drop 1 := by decide
                  rw [hPsplit, List.cons_append] at huv
                  have hc : c = 'E' := (List.cons.injEq .. ▸ huv).1
                  have h2 : replaceAll placeholder (encKeyEq ++ key) t =
                      placeholder.drop 1 ++ v := (List.cons.injEq .. ▸ huv).2
                  have hpd := replaceAll_partial_recover key hK44 t
                    (placeholder.drop 1) ['E'] (by simp) (by decide) (by decide)
                    ⟨v, h2.symm⟩
                  obtain ⟨z, hz⟩ := hpd
                  have hfull : placeholder.isPrefixOf (c :: t) = true := by
                    rw [List.isPrefixOf_iff_prefix]
                    exact ⟨z, by rw [hPsplit, List.cons_append, hz, hc]⟩
                  rw [hfull] at hmatch
                  simp at hmatch
              | cons u0 u' =>
                  simp only [List.cons_append] at huv
                  have h2 : replaceAll placeholder (encKeyEq ++ key) t =
                      u' ++ (placeholder ++ v) := (List.cons.injEq .. ▸ huv).2
                  exact ih t (by omega) ⟨u', v, h2⟩
          | true =>
              rw [replaceAll_cons_pos (encKeyEq ++ key) hmatch] at huv
              have hElen : encKeyEq.length = 15 := by decide
              rcases occurrence_split huv.symm with
                ⟨w, hw⟩ | ⟨w, hw1, hw2⟩ | ⟨a, b, hab, hane, hbne, hX, hY⟩
              · have hc := congrArg (List.count '_') hw
                have hcE : List.count '_' encKeyEq = 1 := by decide
                have hcP : List.count '_' placeholder = 4 := by decide
                have hcK : List.count '_' key = 0 := List.count_eq_zero.mpr hKus
                simp only [List.count_append, hcE, hcP, hcK] at hc
                omega
              · refine ih (t.drop (placeholder.length - 1))
                  (by simp only [List.length_drop]; omega) ⟨w, v, hw2⟩
              · have hablen : a.length + b.length = 41 := by
                  have hL := congrArg List.length hab
                  simpa [List.length_append, show placeholder.length = 41 by decide]
                    using hL.symm
                have ha1 : 1 ≤ a.length := List.length_pos.mpr hane
                have hb1 : 1 ≤ b.length := List.length_pos.mpr hbne
                have hXlen : 15 + 44 = u.length + a.length := by
                  have hL := congrArg List.length hX
                  simpa [List.length_append, hElen, hK44] using hL
                have hkey : key = u.drop 15 ++ a := by
                  have h2 := congrArg (List.drop 15) hX
                  rw [List.drop_left' hElen,
                    List.drop_append_of_le_length (by omega)] at h2
                  exact h2
                have htake : placeholder.take a.length = a := by
                  rw [hab]
                  exact List.take_left a b
                by_cases hcase : 11 ≤ a.length
                · have hmem : '_' ∈ placeholder.take a.length := by
                    have hfact : ∀ j, j < 41 → 11 ≤ j → '_' ∈ placeholder.take j := by
                      decide
                    exact hfact a.length (by omega) hcase
                  rw [htake] at hmem
                  exact hKus (by rw [hkey]; exact List.mem_append.mpr (Or.inr hmem))
                · have hklast : key.getLast? = a.getLast? := by
                    rw [hkey, List.getLast?_append]
                    obtain ⟨x, hx⟩ : ∃ x, a.getLast? = some x := by
                      cases hal : a.getLast? with
                      | none => exact absurd (List.getLast?_eq_none_iff.mp hal) hane
                      | some x => exact ⟨x, rfl⟩
                    rw [hx]
                    exact Option.or_some
                  have hlastpad : (placeholder.take a.length).getLast? = some '=' := by
                    rw [htake, ← hklast]
                    exact hKpad
                  have hfact : ∀ j, j < 11 → 1 ≤ j →
                      ¬ (placeholder.take j).getLast? = some '=' := by decide
                  exact hfact a.length (by omega) (by omega) hlastpad

/-- The facts about the generated key needed above, for the default length
`32`: 44 characters, no underscore, final character `=`. -/
theorem key32_facts (bytes : List Nat) (h32 : bytes.length = 32) :
    (b64encodeList bytes).length = 44 ∧ '_' ∉ b64encodeList bytes ∧
      (b64encodeList bytes).getLast? = some '=' := by
  refine ⟨?_, b64encode_no_us bytes, ?_⟩
  · rw [b64encode_length, h32]
  · obtain ⟨l, hl, -⟩ := b64encode_pad_shape bytes (by omega)
    rw [hl]
    exact List.getLast?_concat l

/-- With a default-length key, the patched text never contains the
placeholder. -/
theorem replaceAll_default_no_placeholder (bytes : List Nat)
    (h32 : bytes.length = 32) (s : List Char) :
    containsSub placeholder
      (replaceAll placeholder (encKeyEq ++ b64encodeList bytes) s) = false := by
  obtain ⟨hK44, hKus, hKpad⟩ := key32_facts bytes h32
  cases hcs : containsSub placeholder
      (replaceAll placeholder (encKeyEq ++ b64encodeList bytes) s) with
  | false => rfl
  | true =>
      obtain ⟨u, v, h⟩ := containsSub_iff.mp hcs
      exact absurd ⟨u, v, by rw [← List.append_assoc]; exact h⟩
        (replaceAll_no_placeholder (b64encodeList bytes) hK44 hKus hKpad
          s.length s (Nat.le_refl _))

/-- If the pattern occurs in the text, the replacement text occurs in the
output of `replaceAll`. -/
theorem replaceAll_has_replacement (p r : List Char) (hp : p ≠ []) :
    ∀ s : List Char, containsSub p s = true →
      ∃ u v, replaceAll p r s = u ++ (r ++ v) := by
  intro s
  induction s with
  | nil =>
      intro hcs
      simp only [containsSub, List.isEmpty_iff] at hcs
      exact absurd hcs hp
  | cons c t ih =>
      intro hcs
      cases hmatch : p.isPrefixOf (c :: t) with
      | true =>
          exact ⟨[], replaceAll p r (t.drop (p.length - 1)),
            by rw [replaceAll_cons_pos r hmatch]; simp⟩
      | false =>
          have hct : containsSub p t = true := by
            simp only [containsSub, hmatch, Bool.false_or] at hcs
            exact hcs
          obtain ⟨u, v, h⟩ := ih hct
          exact ⟨c :: u, v, by rw [replaceAll_cons_neg r hmatch, h]; simp⟩

/-- The returned key is always the base64 encoding of the drawn bytes,
whatever the state of the `.env` file. -/
theorem gek_key (bytes : List Nat) (envFile : Option (List Char)) :
    (generate_encryption_key bytes envFile).key = b64encodeList bytes := by
  cases envFile with
  | none => rfl
  | some content =>
      cases hc : containsSub placeholder content with
      | true => simp [generate_encryption_key, hc]
      | false => simp [generate_encryption_key, hc]

/-! ## The claims -/

/-- C1, counterexample: the claim also asserts that after patching the
placeholder no longer occurs in the file.  With the 3-byte draw
`[173, 234, 101]` (key `repl`) and a `.env` whose content is the placeholder
followed by `ace_with_generated_key`, the run rewrites the file and the new
content is again exactly the placeholder, so the placeholder still occurs. -/
theorem c1_counterexample :
    (generate_encryption_key [173, 234, 101]
        (some ("ENCRYPTION_KEY=replace_with_generated_keyace_with_generated_key".toList))).envWritten.isSome
      = true ∧
    containsSub placeholder
      (((generate_encryption_key [173, 234, 101]
        (some ("ENCRYPTION_KEY=replace_with_generated_keyace_with_generated_key".toList))).envFinal).getD [])
      = true := by decide

/-- C1 (amended): for every pre-existing `.env` content containing the
placeholder, the file afterwards holds the old content with every occurrence
of the placeholder replaced by `ENCRYPTION_KEY=<returned key>`; and when the
key has the default length 32 bytes, the placeholder no longer occurs in the
file. -/
theorem c1_env_patched (bytes : List Nat) (content : List Char)
    (hc : containsSub placeholder content = true) :
    (generate_encryption_key bytes (some content)).envFinal =
      some (replaceAll placeholder (encKeyEq ++ b64encodeList bytes) content) ∧
    (bytes.length = 32 →
      containsSub placeholder
        (((generate_encryption_key bytes (some content)).envFinal).getD []) = false) := by
  constructor
  · simp [generate_encryption_key, hc]
  · intro h32
    simp only [generate_encryption_key, hc, if_true, Option.getD_some]
    exact replaceAll_default_no_placeholder bytes h32 content

theorem c1_env_patched_witness :
    (generate_encryption_key (List.replicate 32 0)
        (some ("ENCRYPTION_KEY=replace_with_generated_key".toList))).envFinal =
      some (replaceAll placeholder (encKeyEq ++ b64encodeList (List.replicate 32 0))
        ("ENCRYPTION_KEY=replace_with_generated_key".toList)) ∧
    containsSub placeholder
      (((generate_encryption_key (List.replicate 32 0)
        (some ("ENCRYPTION_KEY=replace_with_generated_key".toList))).envFinal).getD [])
      = false := by
  have h := c1_env_patched (List.replicate 32 0)
    ("ENCRYPTION_KEY=replace_with_generated_key".toList) (by decide)
  exact ⟨h.1, h.2 (by decide)⟩

/-- C2: when the pre-existing `.env` content does not contain the
placeholder, the content is unchanged and no write is performed. -/
theorem c2_no_placeholder_untouched (bytes : List Nat) (content : List Char)
    (hc : containsSub placeholder content = false) :
    (generate_encryption_key bytes (some content)).envFinal = some content ∧
    (generate_encryption_key bytes (some content)).envWritten = none := by
  constructor <;> simp [generate_encryption_key, hc]

theorem c2_no_placeholder_untouched_witness :
    (generate_encryption_key [0] (some ("API_KEY=abc".toList))).envFinal =
      some ("API_KEY=abc".toList) ∧
    (generate_encryption_key [0] (some ("API_KEY=abc".toList))).envWritten = none :=
  c2_no_placeholder_untouched [0] ("API_KEY=abc".toList) (by decide)

/-- C3: when no `.env` file exists, no write is performed, the file still
does not exist afterwards, and the base64 key is still returned. -/
theorem c3_missing_env (bytes : List Nat) :
    (generate_encryption_key bytes none).envWritten = none ∧
    (generate_encryption_key bytes none).envFinal = none ∧
    (generate_encryption_key bytes none).key = b64encodeList bytes :=
  ⟨rfl, rfl, rfl⟩

/-- C4: for every length `L ≥ 1`, the returned base64 key decodes back to
exactly the `L` drawn bytes. -/
theorem c4_decode_roundtrip (bytes : List Nat) (envFile : Option (List Char))
    (_h1 : 1 ≤ bytes.length) (hb : ∀ b ∈ bytes, b < 256) :
    b64decodeList ((generate_encryption_key bytes envFile).key) = some bytes ∧
    ∃ bs, b64decodeList ((generate_encryption_key bytes envFile).key) = some bs ∧
      bs.length = bytes.length := by
  rw [gek_key]
  have h := b64_roundtrip bytes hb
  exact ⟨h, bytes, h, rfl⟩

theorem c4_decode_roundtrip_witness :
    b64decodeList ((generate_encryption_key [7] none).key) = some [7] ∧
    ∃ bs, b64decodeList ((generate_encryption_key [7] none).key) = some bs ∧
      bs.length = [7].length :=
  c4_decode_roundtrip [7] none (by decide) (by decide)

/-- C5: for the default length 32, the key is a 44-character base64 string
ending in exactly one `=`, and it decodes back to the 32 drawn bytes. -/
theorem c5_default_shape (bytes : List Nat) (envFile : Option (List Char))
    (h32 : bytes.length = 32) (hb : ∀ b ∈ bytes, b < 256) :
    ((generate_encryption_key bytes envFile).key).length = 44 ∧
    (∃ l, (generate_encryption_key bytes envFile).key = l ++ ['='] ∧ '=' ∉ l) ∧
    b64decodeList ((generate_encryption_key bytes envFile).key) = some bytes := by
  rw [gek_key]
  obtain ⟨hl, -, -⟩ := key32_facts bytes h32
  obtain ⟨l, he, hm⟩ := b64encode_pad_shape bytes (by omega)
  exact ⟨hl, ⟨l, he, hm⟩, b64_roundtrip bytes hb⟩

theorem c5_default_shape_witness :
    ((generate_encryption_key (List.replicate 32 0) none).key).length = 44 ∧
    (∃ l, (generate_encryption_key (List.replicate 32 0) none).key = l ++ ['='] ∧
      '=' ∉ l) ∧
    b64decodeList ((generate_encryption_key (List.replicate 32 0) none).key) =
      some (List.replicate 32 0) :=
  c5_default_shape (List.replicate 32 0) none (by decide) (by decide)

/-- C6: the inspected `.env` path is the file named `.env` in the parent
directory of the directory containing the script. -/
theorem c6_env_path (base : List (List Char)) (toolsDir scriptName : List Char) :
    env_path (base ++ [toolsDir, scriptName]) = base ++ [".env".toList] := by
  unfold env_path joinC dirnameC
  have h1 : (base ++ [toolsDir, scriptName]).dropLast = base ++ [toolsDir] := by
    rw [show base ++ [toolsDir, scriptName] = (base ++ [toolsDir]) ++ [scriptName] by simp]
    exact List.dropLast_concat
  rw [h1, List.dropLast_concat]

/-- C7: every run prints the key line and the advisory line, followed by the
confirmation line exactly when the `.env` file was patched. -/
theorem c7_printed_lines (bytes : List Nat) (envFile : Option (List Char)) :
    (generate_encryption_key bytes envFile).printed =
      [keyMsg ++ (generate_encryption_key bytes envFile).key, storeMsg] ++
        (if (generate_encryption_key bytes envFile).envWritten.isSome
          then [updatedMsg] else []) := by
  cases envFile with
  | none => rfl
  | some content =>
      cases hc : containsSub placeholder content with
      | true => simp [generate_encryption_key, hc]
      | false => simp [generate_encryption_key, hc]

/-- C8: on every path the returned key is the base64 encoding of the drawn
bytes, it is the key printed in the first line, and whenever a write
happened the written content contains `ENCRYPTION_KEY=<key>`. -/
theorem c8_return_value (bytes : List Nat) (envFile : Option (List Char)) :
    (generate_encryption_key bytes envFile).key = b64encodeList bytes ∧
    (generate_encryption_key bytes envFile).printed.head? =
      some (keyMsg ++ (generate_encryption_key bytes envFile).key) ∧
    (∀ c, (generate_encryption_key bytes envFile).envWritten = some c →
      containsSub (encKeyEq ++ (generate_encryption_key bytes envFile).key) c = true) := by
  refine ⟨gek_key bytes envFile, ?_, ?_⟩
  · cases envFile with
    | none => rfl
    | some content =>
        cases hc : containsSub placeholder content with
        | true => simp [generate_encryption_key, hc]
        | false => simp [generate_encryption_key, hc]
  · intro c hwc
    cases envFile with
    | none => simp [generate_encryption_key] at hwc
    | some content =>
        cases hc : containsSub placeholder content with
        | false => simp [generate_encryption_key, hc] at hwc
        | true =>
            rw [gek_key]
            simp only [generate_encryption_key, hc, if_true, Option.some.injEq] at hwc
            obtain ⟨u, v, h⟩ := replaceAll_has_replacement placeholder
              (encKeyEq ++ b64encodeList bytes) (by decide) content hc
            rw [← hwc, h]
            exact containsSub_iff.mpr ⟨u, v, by simp [List.append_assoc]⟩

theorem c8_return_value_witness :
    containsSub (encKeyEq ++ (generate_encryption_key [0] (some placeholder)).key)
      (((generate_encryption_key [0] (some placeholder)).envWritten).getD []) = true :=
  (c8_return_value [0] (some placeholder)).2.2 _ (by decide)

/-- C10: with a zero-length draw the run does not fail: the returned key is
the empty string, the two fixed lines are printed first, and the conditional
patching still proceeds normally (the replacement text degenerating to
`ENCRYPTION_KEY=`). -/
theorem c10_zero_length (envFile : Option (List Char)) :
    (generate_encryption_key [] envFile).key = [] ∧
    (generate_encryption_key [] envFile).printed.take 2 = [keyMsg, storeMsg] ∧
    (∀ content, envFile = some content → containsSub placeholder content = true →
      (generate_encryption_key [] envFile).envFinal =
        some (replaceAll placeholder encKeyEq content)) := by
  refine ⟨gek_key [] envFile, ?_, ?_⟩
  · cases envFile with
    | none => rfl
    | some content =>
        cases hc : containsSub placeholder content with
        | true => simp [generate_encryption_key, hc, b64encodeList]
        | false => simp [generate_encryption_key, hc, b64encodeList]
  · rintro content rfl hc
    have h : encKeyEq ++ b64encodeList [] = encKeyEq := by
      simp [b64encodeList]
    simp only [generate_encryption_key, hc, if_true, h]

theorem c10_zero_length_witness :
    (generate_encryption_key [] (some placeholder)).envFinal =
      some (replaceAll placeholder encKeyEq placeholder) :=
  (c10_zero_length (some placeholder)).2.2 placeholder rfl (by decide)
